import Mathlib

/-!
Verification of the action-item extraction functions of this repository.

The repository contains several Python variants of a rule-based action-item
extractor plus a hashtag extractor:
* `week2/app/services/extract.py` — bullet/keyword detection with a
  sentence-splitting fallback and a final dedup pass;
* `week4/backend/app/services/extract.py` (textually identical logic in
  `week5/backend/app/services/extract.py`) — the simple `!` / `todo:` rule;
* `week8/version1-fastapi/app/services/extract.py` — the rich
  keyword/verb/exclamation/imperative classifier with inline dedup;
* `week5/backend/app/services/extract.py` — `extract_hashtags`.

Python strings are modelled as `List Char` (one element per code point).
Character classes (`\s`, `\d`, `\w`, `[a-zA-Z]`, `str.lower`, `str.isupper`)
are modelled over the ASCII range, matching the behaviour of the Python code
on ASCII input; `str.splitlines` is modelled as splitting on `'\n'`.
-/

namespace Extract

/-- Whitespace test, modelling Python's `str.strip()` / regex `\s`
on the ASCII range: space, tab, newline, carriage return, vertical tab,
form feed. -/
def isSpace (c : Char) : Bool :=
  c.toNat = 32 || c.toNat = 9 || c.toNat = 10 || c.toNat = 13 ||
  c.toNat = 11 || c.toNat = 12

/-- ASCII letter test, modelling the regex class `[a-zA-Z]`. -/
def isAlphaChar (c : Char) : Bool :=
  (65 ≤ c.toNat && c.toNat ≤ 90) || (97 ≤ c.toNat && c.toNat ≤ 122)

/-- ASCII digit test, modelling the regex class `\d`. -/
def isDigitChar (c : Char) : Bool :=
  48 ≤ c.toNat && c.toNat ≤ 57

/-- ASCII word-character test, modelling the regex class `\w`:
letters, digits, underscore. -/
def isWordChar (c : Char) : Bool :=
  isAlphaChar c || isDigitChar c || c.toNat = 95

/-- Uppercase-letter test, modelling Python's `str.isupper` on one ASCII
character. -/
def isUpperChar (c : Char) : Bool :=
  65 ≤ c.toNat && c.toNat ≤ 90

/-- Lowercasing of one character, modelling Python's `str.lower` on the
ASCII range. -/
def lowerChar (c : Char) : Char :=
  if 65 ≤ c.toNat ∧ c.toNat ≤ 90 then Char.ofNat (c.toNat + 32) else c

/-- Lowercasing of a string (`str.lower`). -/
def lowerL (l : List Char) : List Char := l.map lowerChar

/-- Removal of trailing whitespace (`str.rstrip()`). -/
def pstripRight : List Char → List Char
  | [] => []
  | c :: rest =>
    match pstripRight rest with
    | [] => if isSpace c then [] else [c]
    | r => c :: r

/-- Removal of leading whitespace (`str.lstrip()`). -/
def pstripLeft (l : List Char) : List Char := l.dropWhile isSpace

/-- Removal of surrounding whitespace (`str.strip()`). -/
def pstrip (l : List Char) : List Char := pstripRight (pstripLeft l)

/-- Removal of leading and trailing characters drawn from a character set,
modelling Python's `str.strip(chars)` (used as `line.strip("- ")` in the
week4/week5 extractor). -/
def stripSet (s : List Char) (l : List Char) : List Char :=
  ((l.dropWhile (fun c => s.contains c)).reverse.dropWhile
    (fun c => s.contains c)).reverse

/-- Removal of one leading occurrence of `p`, modelling Python's
`str.removeprefix(p)` (an exact, case-sensitive match). -/
def removePfx (p l : List Char) : List Char :=
  if p.isPrefixOf l then l.drop p.length else l

/-- Line splitting, modelling Python's `str.splitlines()` restricted to
`'\n'` separators: `""` gives no lines, and a final `'\n'` does not
produce a trailing empty line. -/
def splitlinesGo : List Char → List Char → List (List Char)
  | [], acc => [acc.reverse]
  | '\n' :: [], acc => [acc.reverse]
  | '\n' :: c :: rest, acc => acc.reverse :: splitlinesGo (c :: rest) []
  | c :: rest, acc => splitlinesGo rest (c :: acc)

/-- Python `text.splitlines()`. -/
def splitlines (l : List Char) : List (List Char) :=
  if l = [] then [] else splitlinesGo l []

/-- Consumption of the regex fragment `\s+` (one mandatory whitespace
character, then greedily all following whitespace); returns the remainder,
or `none` when the first character is not whitespace. -/
def wsPlus : List Char → Option (List Char)
  | [] => none
  | c :: r => if isSpace c then some (r.dropWhile isSpace) else none

/-- Substring test, modelling Python's `needle in haystack` on strings. -/
def containsSub (needle : List Char) : List Char → Bool
  | [] => needle.isPrefixOf []
  | c :: rest => needle.isPrefixOf (c :: rest) || containsSub needle rest

/-! ## The week2 extractor (`week2/app/services/extract.py`)

`BULLET_PREFIX_PATTERN = re.compile(r"^\s*([-*â€¢]|\d+\.)\s+")` — the source
file stores the bullet glyph as the three mojibake characters `â`, `€`, `¢`
(bytes `c3 a2 e2 82 ac c2 a2`), so the character class matches any of
`-`, `*`, `â`, `€`, `¢`. -/

/-- Characters accepted by the week2 bullet character class `[-*â€¢]`. -/
def bulletChars : List Char := ['-', '*', 'â', '€', '¢']

/-- Matching of `BULLET_PREFIX_PATTERN` (`^\s*([-*â€¢]|\d+\.)\s+`) against
the start of a string; returns the remainder after the match, or `none`.
The regex needs no backtracking here: the alternation characters are never
whitespace, and a shorter `\d+` could only be followed by another digit,
never by `.`. -/
def matchBulletPfx (l : List Char) : Option (List Char) :=
  match l.dropWhile isSpace with
  | [] => none
  | c :: rest =>
    if bulletChars.contains c then wsPlus rest
    else if isDigitChar c then
      match rest.dropWhile isDigitChar with
      | '.' :: r2 => wsPlus r2
      | _ => none
    else none

/-- Application of `BULLET_PREFIX_PATTERN.sub("", line)`: the pattern is anchored at the
start, so at most the one leading match is removed. -/
def subBullet (l : List Char) : List Char :=
  (matchBulletPfx l).getD l

/-- Keyword prefixes of `_is_action_line` (`KEYWORD_PREFIXES`). -/
def keywordPrefixes : List (List Char) :=
  (["todo:", "action:", "next:"]).map String.data

/-- Week2 `_is_action_line`: on the stripped, lowercased line, test the
bullet pattern, then the keyword prefixes, then the checkbox substrings. -/
def isActionLine (line : List Char) : Bool :=
  let stripped := lowerL (pstrip line)
  if stripped = [] then false
  else if (matchBulletPfx stripped).isSome then true
  else if keywordPrefixes.any (fun p => p.isPrefixOf stripped) then true
  else if containsSub ("[ ]".data) stripped || containsSub ("[todo]".data) stripped then true
  else false

/-- Week2 per-line cleaning: strip the bullet prefix, then strip
whitespace, then remove a literal leading `[ ]` and a literal leading
`[todo]` (each exact and case-sensitive), stripping whitespace after each
removal. -/
def cleanLine (line : List Char) : List Char :=
  pstrip (removePfx ("[todo]".data)
    (pstrip (removePfx ("[ ]".data) (pstrip (subBullet line)))))

/-- The week2 per-line pass: strip each line, skip blanks, and collect the
cleaned form of every line `_is_action_line` accepts. -/
def linePass : List (List Char) → List (List Char)
  | [] => []
  | raw :: rest =>
    if pstrip raw = [] then linePass rest
    else if isActionLine (pstrip raw) then cleanLine (pstrip raw) :: linePass rest
    else linePass rest

/-- Sentence-terminator test for the fallback split (`[.!?]`). -/
def isSentEnd (c : Char) : Bool := c = '.' || c = '!' || c = '?'

/-- Matching pass of `re.split(r"(?<=[.!?])\s+", text)`: scanning left to
right, each maximal whitespace run immediately preceded by `.`, `!` or `?`
is a separator. `prev` is the character before the current position
(initially a sentinel for which the lookbehind fails). The `fuel`
argument only bounds the recursion; every step consumes at least one
character, so with `fuel` at least the length of the list the zero-fuel
case is unreachable. -/
def sentSplitGo : Nat → List Char → Char → List Char → List (List Char)
  | _, [], _, acc => [acc.reverse]
  | 0, _ :: _, _, acc => [acc.reverse]
  | fuel + 1, c :: rest, prev, acc =>
    if isSentEnd prev ∧ isSpace c then
      acc.reverse :: sentSplitGo fuel (rest.dropWhile isSpace) ' ' []
    else
      sentSplitGo fuel rest c (c :: acc)

/-- The sentence list of the week2 fallback:
`re.split(r"(?<=[.!?])\s+", text.strip())`. -/
def sentencesOf (text : List Char) : List (List Char) :=
  sentSplitGo (pstrip text).length (pstrip text) 'x' []

/-- The imperative-starter word set of week2 `_looks_imperative`. -/
def imperativeStarters : List (List Char) :=
  (["add", "create", "implement", "fix", "update",
    "write", "check", "verify", "refactor", "document",
    "design", "investigate"]).map String.data

/-- First word of a sentence in the sense of week2 `_looks_imperative`:
the first maximal run of characters matching `[A-Za-z']`
(from `re.findall(r"[A-Za-z']+", sentence)`). -/
def firstAlphaWord (l : List Char) : List Char :=
  (l.dropWhile (fun c => !(isAlphaChar c || c.toNat = 39))).takeWhile
    (fun c => isAlphaChar c || c.toNat = 39)

/-- Week2 `_looks_imperative`: the first word exists and its lowercase form
is an imperative starter. -/
def looksImperative (s : List Char) : Bool :=
  if firstAlphaWord s = [] then false
  else imperativeStarters.contains (lowerL (firstAlphaWord s))

/-- The week2 fallback loop body: strip each sentence, skip blanks, keep
the ones `_looks_imperative` accepts. -/
def fallbackFilter : List (List Char) → List (List Char)
  | [] => []
  | sent :: rest =>
    if pstrip sent = [] then fallbackFilter rest
    else if looksImperative (pstrip sent) then pstrip sent :: fallbackFilter rest
    else fallbackFilter rest

/-- The week2 fallback pass over the raw text. -/
def fallbackPass (text : List Char) : List (List Char) :=
  fallbackFilter (sentencesOf text)

/-- First-seen deduplication with an explicit seen-set of keys, modelling
the `seen` / `unique` loops of the Python sources; `key` is the
normalization applied before the membership test. -/
def dedupGo (key : List Char → List Char) :
    List (List Char) → List (List Char) → List (List Char)
  | [], _ => []
  | x :: rest, seen =>
    if key x ∈ seen then dedupGo key rest seen
    else x :: dedupGo key rest (key x :: seen)

/-- Week2 `extract_action_items`: line pass, sentence fallback when the
line pass found nothing, then deduplication by lowercase form. -/
def extract_action_items_week2 (text : List Char) : List (List Char) :=
  dedupGo lowerL
    (if linePass (splitlines text) = [] then fallbackPass text
     else linePass (splitlines text)) []

/-! ## The week4/week5 simple extractor

`week4/backend/app/services/extract.py` and
`week5/backend/app/services/extract.py` contain the same two-line function:
keep non-blank lines, strip the character set `"- "` from both ends, keep
lines that end with `!` or start with `todo:` (case-insensitively). -/

/-- Week4/week5 `extract_action_items`. -/
def extract_action_items_week4 (text : List Char) : List (List Char) :=
  (((splitlines text).filter (fun l => !(pstrip l).isEmpty)).map
     (stripSet ("- ".data))).filter
    (fun l => ("!".data).isSuffixOf l || ("todo:".data).isPrefixOf (lowerL l))

/-! ## The week8 extractor (`week8/version1-fastapi/app/services/extract.py`) -/

/-- Week8 cleanup regex `^\s*[-*â€¢]\s+` (the bullet glyph is stored as the
same three mojibake characters as in week2): remainder after the match. -/
def matchDashPfx (l : List Char) : Option (List Char) :=
  match l.dropWhile isSpace with
  | [] => none
  | c :: rest => if bulletChars.contains c then wsPlus rest else none

/-- Week8 cleanup regex `^\s*\d+[\.\)]\s+`: remainder after the match. -/
def matchNumPfx (l : List Char) : Option (List Char) :=
  match l.dropWhile isSpace with
  | [] => none
  | c :: rest =>
    if isDigitChar c then
      match rest.dropWhile isDigitChar with
      | p :: r2 => if p = '.' ∨ p = ')' then wsPlus r2 else none
      | [] => none
    else none

/-- The `re.sub(r"^\s*[-*â€¢]\s+", "", line.strip())` step of week8. -/
def subDash (l : List Char) : List Char := (matchDashPfx l).getD l

/-- The `re.sub(r"^\s*\d+[\.\)]\s+", "", cleaned)` step of week8. -/
def subNum (l : List Char) : List Char := (matchNumPfx l).getD l

/-- Week8 line cleanup: strip the line, remove a bullet prefix, remove a
numbered prefix. -/
def clean8 (line : List Char) : List Char := subNum (subDash (pstrip line))

/-- Week8 normalized form for dedup comparison:
`cleaned.lower().strip()`. -/
def normKey (l : List Char) : List Char := pstrip (lowerL l)

/-- The `action_keywords` words of week8
(`^(todo|action|fixme|bug|hack|note|reminder|warning|important|urgent|critical)\s*:`,
case-insensitive). -/
def actionKeywords : List (List Char) :=
  (["todo", "action", "fixme", "bug", "hack", "note", "reminder",
    "warning", "important", "urgent", "critical"]).map String.data

/-- Week8 pattern 1: one of the action keywords at the start of the
lowercased line, then `\s*`, then `:`. No keyword is a prefix of another,
so the regex alternation reduces to an existence test. -/
def rule1 (cleaned : List Char) : Bool :=
  actionKeywords.any (fun w =>
    w.isPrefixOf (lowerL cleaned) &&
    (match ((lowerL cleaned).drop w.length).dropWhile isSpace with
     | ':' :: _ => true
     | _ => false))

/-- The `action_verb_patterns` phrases of week8, grouped as in the source's
seven regexes (each `^\s*(?:...)\b`, case-insensitive). The seven regexes
are tried in order with identical guarded effects, so together they reduce
to one existence test over the union. -/
def actionVerbPhrases : List (List Char) :=
  ((["must", "should", "need to", "remember to", "ensure", "make sure",
     "consider", "review"] ++
    ["implement", "add", "remove", "update", "fix", "refactor", "test",
     "verify", "check", "confirm"] ++
    ["complete", "finish", "start", "create", "delete", "modify",
     "improve", "optimize"] ++
    ["document", "clarify", "resolve", "address", "handle", "process",
     "validate"] ++
    ["deploy", "rollback", "merge", "split", "prioritize", "schedule",
     "assign"] ++
    ["notify", "inform", "contact", "follow up", "investigate",
     "analyze"] ++
    ["evaluate", "assess", "monitor", "track", "log", "debug",
     "trace"])).map String.data

/-- Week8 pattern 2: after `^\s*`, one of the verb phrases, then a word
boundary `\b` (end of string or a non-word character; every phrase ends in
a letter). -/
def rule2 (cleaned : List Char) : Bool :=
  actionVerbPhrases.any (fun p =>
    p.isPrefixOf ((lowerL cleaned).dropWhile isSpace) &&
    (match ((lowerL cleaned).dropWhile isSpace).drop p.length with
     | [] => true
     | c :: _ => !isWordChar c))

/-- Week8 pattern 3: `cleaned.rstrip().endswith("!")` and the line contains
a letter. -/
def rule3 (cleaned : List Char) : Bool :=
  ("!".data).isSuffixOf (pstripRight cleaned) && cleaned.any isAlphaChar

/-- The `imperative_verbs` set of week8 pattern 4. -/
def imperativeVerbs : List (List Char) :=
  (["add", "update", "fix", "remove", "create", "delete", "modify",
    "implement", "test", "verify", "check", "review", "complete",
    "finish", "start", "ensure", "improve", "refactor",
    "document", "clarify", "resolve", "handle", "process", "validate",
    "deploy", "merge", "split", "prioritize", "schedule", "assign",
    "notify", "investigate", "analyze", "monitor", "track"]).map String.data

/-- Python `str.split()` with no arguments: split on whitespace runs,
producing no empty words. -/
def pySplitGo : List Char → List Char → List (List Char)
  | [], acc => if acc = [] then [] else [acc.reverse]
  | c :: rest, acc =>
    if isSpace c then
      if acc = [] then pySplitGo rest [] else acc.reverse :: pySplitGo rest []
    else pySplitGo rest (c :: acc)

/-- Python `str.split()`. -/
def pySplit (l : List Char) : List (List Char) := pySplitGo l []

/-- Week8 pattern 4: the first whitespace-separated word, lowercased, is an
imperative verb, the first character of the line is an uppercase letter,
and the line has at least two words. -/
def rule4 (cleaned : List Char) : Bool :=
  match pySplit cleaned with
  | [] => false
  | w :: ws =>
    imperativeVerbs.contains (lowerL w) &&
    (match cleaned with
     | c :: _ => isUpperChar c
     | [] => false) &&
    !ws.isEmpty

/-- Week8 classification: a line is kept when any of the four patterns
accepts it. In the source each pattern appends under the same
`normalized not in seen_items` guard and otherwise falls through to the
next pattern, so the four guarded branches collapse to this disjunction. -/
def classify8 (cleaned : List Char) : Bool :=
  rule1 cleaned || rule2 cleaned || rule3 cleaned || rule4 cleaned

/-- The week8 main loop over lines, with the seen-set of normalized forms:
skip blank lines; clean; skip too-short lines, questions and letterless
lines; then append the cleaned line when some pattern matches and its
normalized form is new. -/
def extract8Go : List (List Char) → List (List Char) → List (List Char)
  | [], _ => []
  | line :: rest, seen =>
    if pstrip line = [] then extract8Go rest seen
    else if clean8 line = [] ∨ (clean8 line).length < 3 then extract8Go rest seen
    else if ("?".data).isSuffixOf (pstripRight (clean8 line)) then extract8Go rest seen
    else if !(clean8 line).any isAlphaChar then extract8Go rest seen
    else if classify8 (clean8 line) ∧ normKey (clean8 line) ∉ seen then
      clean8 line :: extract8Go rest (normKey (clean8 line) :: seen)
    else extract8Go rest seen

/-- Week8 `extract_action_items`: empty or whitespace-only text yields
`[]`; otherwise the guarded loop over the lines. -/
def extract_action_items_week8 (text : List Char) : List (List Char) :=
  if pstrip text = [] then [] else extract8Go (splitlines text) []

/-- The classification pass of week8 without the dedup guard: the cleaned
forms of all lines that pass the filters and match some pattern, in line
order. Used to state that the week8 result is its first-seen
deduplication. -/
def candidates8 : List (List Char) → List (List Char)
  | [] => []
  | line :: rest =>
    if pstrip line = [] then candidates8 rest
    else if clean8 line = [] ∨ (clean8 line).length < 3 then candidates8 rest
    else if ("?".data).isSuffixOf (pstripRight (clean8 line)) then candidates8 rest
    else if !(clean8 line).any isAlphaChar then candidates8 rest
    else if classify8 (clean8 line) then clean8 line :: candidates8 rest
    else candidates8 rest

/-! ## The week5 hashtag extractor (`week5/backend/app/services/extract.py`) -/

/-- Scan of `re.findall(r"#(\w+)", text)`: left to right, each `#`
followed by at least one word character yields the maximal word-character
run after it, and scanning resumes after that run. The `fuel` argument
only bounds the recursion; every step consumes at least one character, so
with `fuel` at least the length of the list the zero-fuel case is
unreachable. -/
def findTagsGo : Nat → List Char → List (List Char)
  | _, [] => []
  | 0, _ :: _ => []
  | fuel + 1, c :: rest =>
    if c = '#' then
      if rest.takeWhile isWordChar = [] then findTagsGo fuel rest
      else rest.takeWhile isWordChar ::
        findTagsGo fuel (rest.drop (rest.takeWhile isWordChar).length)
    else findTagsGo fuel rest

/-- Python `re.findall(r"#(\w+)", text)`. -/
def findTags (l : List Char) : List (List Char) := findTagsGo l.length l

/-- The dedup loop of `extract_hashtags`: lowercase each raw tag, keep it
when non-empty and not seen. -/
def hashtagsGo : List (List Char) → List (List Char) → List (List Char)
  | [], _ => []
  | raw :: rest, seen =>
    if lowerL raw ≠ [] ∧ lowerL raw ∉ seen then
      lowerL raw :: hashtagsGo rest (lowerL raw :: seen)
    else hashtagsGo rest seen

/-- Week5 `extract_hashtags`. -/
def extract_hashtags (text : List Char) : List (List Char) :=
  hashtagsGo (findTags text) []

/-! ## Claim-side definitions

These two definitions follow the wording of the specification's simple
variant rather than the source, for comparison with
`extract_action_items_week4`. -/

/-- Modelled from the spec: the simple variant "with marker stripping
limited to a leading `- ` prefix" — each non-blank line has one leading
`"- "` removed (nothing else), and is kept when it ends with `!` or starts
with `todo:` case-insensitively. -/
def simpleVariantClaimed (text : List Char) : List (List Char) :=
  (((splitlines text).filter (fun l => !(pstrip l).isEmpty)).map
     (removePfx ("- ".data))).filter
    (fun l => ("!".data).isSuffixOf l || ("todo:".data).isPrefixOf (lowerL l))

/-- Modelled from the amended claim: as `simpleVariantClaimed`, but the
marker stripping is Python's `line.strip("- ")` — all leading and trailing
`-` and space characters are removed. -/
def simpleVariantAmended (text : List Char) : List (List Char) :=
  (((splitlines text).filter (fun l => !(pstrip l).isEmpty)).map
     (stripSet ("- ".data))).filter
    (fun l => ("!".data).isSuffixOf l || ("todo:".data).isPrefixOf (lowerL l))

/-! ## Character-level lemmas -/

/-- Lowercasing does not change whether a character is whitespace. -/
theorem isSpace_lowerChar (c : Char) : isSpace (lowerChar c) = isSpace c := by
  unfold lowerChar
  split
  · rename_i h
    obtain ⟨h1, h2⟩ := h
    have hs : isSpace c = false := by
      unfold isSpace
      simp only [Bool.or_eq_false_iff, decide_eq_false_iff_not]
      omega
    rw [hs]
    have hm1 : 97 ≤ c.toNat + 32 := by omega
    have hm2 : c.toNat + 32 ≤ 122 := by omega
    generalize c.toNat + 32 = m at hm1 hm2
    interval_cases m <;> decide
  · rfl

/-- An ASCII letter is not whitespace. -/
theorem isAlphaChar_not_space {c : Char} (h : isAlphaChar c = true) :
    isSpace c = false := by
  unfold isAlphaChar at h
  unfold isSpace
  simp only [Bool.or_eq_true, Bool.and_eq_true, decide_eq_true_eq] at h
  simp only [Bool.or_eq_false_iff, decide_eq_false_iff_not]
  omega

/-! ## Lemmas about the string model -/

/-- The lowercase form of a string is empty iff the string is. -/
theorem lowerL_eq_nil_iff {l : List Char} : lowerL l = [] ↔ l = [] := by
  unfold lowerL
  exact List.map_eq_nil_iff

/-- Unfolding of `pstripRight` on a cons cell. -/
theorem pstripRight_cons (c : Char) (l : List Char) :
    pstripRight (c :: l) =
      match pstripRight l with
      | [] => if isSpace c then [] else [c]
      | r => c :: r := rfl

/-- On a cons cell with a non-whitespace head, `pstripRight` keeps the
head. -/
theorem pstripRight_cons_of_ne {c : Char} (l : List Char)
    (h : isSpace c = false) : pstripRight (c :: l) = c :: pstripRight l := by
  rw [pstripRight_cons]
  match hr : pstripRight l with
  | [] => simp [h]
  | r :: rs => rfl

/-- The function `pstripRight` produces `[]` exactly on all-whitespace strings. -/
theorem pstripRight_eq_nil_iff {l : List Char} :
    pstripRight l = [] ↔ ∀ c ∈ l, isSpace c = true := by
  induction l with
  | nil => simp [pstripRight]
  | cons c rest ih =>
    rw [pstripRight_cons]
    match hr : pstripRight rest with
    | [] =>
      rw [hr] at ih
      constructor
      · intro h
        by_cases hc : isSpace c
        · intro x hx
          rcases List.mem_cons.mp hx with h1 | h2
          · subst h1; exact hc
          · exact (ih.mp rfl) x h2
        · simp [hc] at h
      · intro h
        simp [h c (List.mem_cons_self c rest)]
    | r :: rs =>
      rw [hr] at ih
      constructor
      · intro h; exact absurd h (by simp)
      · intro h
        have h2 : (r :: rs : List Char) = [] :=
          ih.mpr (fun x hx => h x (List.mem_cons_of_mem c hx))
        exact absurd h2 (by simp)

/-- Appending a non-whitespace character is invisible to `pstripRight`. -/
theorem pstripRight_append_of_ne (a : List Char) {c : Char}
    (h : isSpace c = false) : pstripRight (a ++ [c]) = a ++ [c] := by
  induction a with
  | nil => simp [pstripRight, h]
  | cons x xs ih =>
    rw [List.cons_append, pstripRight_cons, ih]
    match hx : xs ++ [c] with
    | [] => exact absurd hx (by simp)
    | y :: ys => rfl

/-- Right whitespace stripping is idempotent. -/
theorem pstripRight_idem (l : List Char) :
    pstripRight (pstripRight l) = pstripRight l := by
  induction l with
  | nil => rfl
  | cons c rest ih =>
    rw [pstripRight_cons]
    match hr : pstripRight rest with
    | [] =>
      by_cases hc : isSpace c
      · simp [hc, pstripRight]
      · simp only [if_neg hc]
        simp only [eq_self_iff_true, pstripRight_cons, pstripRight]
        simp [hc]
    | r :: rs =>
      rw [pstripRight_cons]
      rw [hr] at ih
      rw [ih]

/-- The head surviving `dropWhile` falsifies the predicate. -/
theorem dropWhile_head_false {p : Char → Bool} {l : List Char} {c : Char}
    {r : List Char} (h : l.dropWhile p = c :: r) : p c = false := by
  induction l with
  | nil => simp [List.dropWhile] at h
  | cons a as ih =>
    by_cases hp : p a = true
    · rw [List.dropWhile_cons_of_pos hp] at h
      exact ih h
    · rw [List.dropWhile_cons_of_neg hp] at h
      injection h with h1 h2
      subst h1
      simp only [Bool.not_eq_true] at hp
      exact hp

/-- On a cons cell with a non-whitespace head, `pstrip` strips only the
tail. -/
theorem pstrip_cons_of_ne {c : Char} (l : List Char) (h : isSpace c = false) :
    pstrip (c :: l) = c :: pstripRight l := by
  unfold pstrip pstripLeft
  rw [List.dropWhile_cons_of_neg (by simp [h])]
  exact pstripRight_cons_of_ne l h

/-- Whitespace stripping is idempotent. -/
theorem pstrip_idem (l : List Char) : pstrip (pstrip l) = pstrip l := by
  unfold pstrip pstripLeft
  match hx : l.dropWhile isSpace with
  | [] => simp [pstripRight, List.dropWhile_nil]
  | c :: xs =>
    have hc : isSpace c = false := dropWhile_head_false hx
    rw [pstripRight_cons_of_ne xs hc,
      List.dropWhile_cons_of_neg (by simp [hc]),
      pstripRight_cons_of_ne (pstripRight xs) hc, pstripRight_idem]

/-- The function `pstrip` produces `[]` exactly on all-whitespace strings. -/
theorem pstrip_eq_nil_iff {l : List Char} :
    pstrip l = [] ↔ ∀ c ∈ l, isSpace c = true := by
  unfold pstrip pstripLeft
  rw [pstripRight_eq_nil_iff]
  constructor
  · intro h c hc
    rw [← List.takeWhile_append_dropWhile (p := isSpace) (l := l)] at hc
    rcases List.mem_append.mp hc with h1 | h2
    · exact List.mem_takeWhile_imp h1
    · exact h c h2
  · intro h c hc
    exact h c ((List.dropWhile_sublist isSpace).mem hc)

/-- Right stripping as a reversed left strip. -/
theorem pstripRight_eq_reverse (l : List Char) :
    pstripRight l = (l.reverse.dropWhile isSpace).reverse := by
  induction l with
  | nil => rfl
  | cons c rest ih =>
    rw [pstripRight_cons, List.reverse_cons, List.dropWhile_append]
    match hr : pstripRight rest with
    | [] =>
      have hall : ∀ x ∈ rest.reverse, isSpace x = true := by
        intro x hx
        exact (pstripRight_eq_nil_iff.mp hr) x (List.mem_reverse.mp hx)
      rw [List.dropWhile_eq_nil_iff.mpr hall]
      by_cases hc : isSpace c
      · simp [List.dropWhile, hc]
      · simp [List.dropWhile, hc]
    | r :: rs =>
      have hne : rest.reverse.dropWhile isSpace ≠ [] := by
        intro hh
        rw [hh] at ih
        rw [hr] at ih
        exact absurd ih (by simp)
      rw [if_neg (fun hh => hne (List.isEmpty_iff.mp hh))]
      rw [List.reverse_append, ← ih, hr]
      rfl

/-- Membership characterization of the substring test. -/
theorem containsSub_iff {n h : List Char} :
    containsSub n h = true ↔ ∃ a b, a ++ (n ++ b) = h := by
  induction h with
  | nil =>
    unfold containsSub
    rw [List.isPrefixOf_iff_prefix]
    constructor
    · intro hp
      exact ⟨[], [], by simpa using List.prefix_nil.mp hp⟩
    · rintro ⟨a, b, hab⟩
      have : a = [] ∧ n ++ b = [] := by simpa using List.append_eq_nil.mp hab
      have hn : n = [] := (List.append_eq_nil.mp this.2).1
      simp [hn]
  | cons c rest ih =>
    unfold containsSub
    rw [Bool.or_eq_true, List.isPrefixOf_iff_prefix, ih]
    constructor
    · rintro (hp | ⟨a, b, hab⟩)
      · obtain ⟨t, ht⟩ := hp
        exact ⟨[], t, by simpa using ht⟩
      · exact ⟨c :: a, b, by simp [hab]⟩
    · rintro ⟨a, b, hab⟩
      match a with
      | [] =>
        left
        exact ⟨b, by simpa using hab⟩
      | x :: xs =>
        right
        refine ⟨xs, b, ?_⟩
        have := List.cons.injEq x (xs ++ (n ++ b)) c rest ▸ hab
        simp only [List.cons_append] at hab
        injection hab with h1 h2

/-- A substring whose first character is not whitespace survives a left
whitespace strip. -/
theorem containsSub_dropWhile {n l : List Char} {c : Char}
    (hc : n.head? = some c) (hcs : isSpace c = false)
    (h : containsSub n l = true) :
    containsSub n (l.dropWhile isSpace) = true := by
  induction l with
  | nil =>
    simpa using h
  | cons d rest ih =>
    by_cases hd : isSpace d = true
    · rw [List.dropWhile_cons_of_pos hd]
      unfold containsSub at h
      rcases (Bool.or_eq_true _ _).mp h with h1 | h2
      · exfalso
        rw [List.isPrefixOf_iff_prefix] at h1
        obtain ⟨t, ht⟩ := h1
        cases n with
        | nil => simp at hc
        | cons c' ns =>
          rw [List.head?_cons, Option.some.injEq] at hc
          subst hc
          simp only [List.cons_append] at ht
          injection ht with hh1 hh2
          rw [hh1, hd] at hcs
          exact absurd hcs (by simp)
      · exact ih h2
    · rw [List.dropWhile_cons_of_neg hd]
      exact h

/-- Reversal of the substring test. -/
theorem containsSub_reverse {n l : List Char} :
    containsSub n.reverse l.reverse = containsSub n l := by
  rw [Bool.eq_iff_iff, containsSub_iff, containsSub_iff]
  constructor
  · rintro ⟨a, b, hab⟩
    refine ⟨b.reverse, a.reverse, ?_⟩
    have := congrArg List.reverse hab
    simpa [List.reverse_append] using this
  · rintro ⟨a, b, hab⟩
    refine ⟨b.reverse, a.reverse, ?_⟩
    rw [← hab]
    simp [List.reverse_append]

/-- A substring whose first and last characters are not whitespace survives
`pstrip`. -/
theorem containsSub_pstrip {n l : List Char} {c d : Char}
    (hc : n.head? = some c) (hcs : isSpace c = false)
    (hd : n.reverse.head? = some d) (hds : isSpace d = false)
    (h : containsSub n l = true) :
    containsSub n (pstrip l) = true := by
  unfold pstrip pstripLeft
  have h1 : containsSub n (l.dropWhile isSpace) = true :=
    containsSub_dropWhile hc hcs h
  rw [pstripRight_eq_reverse, ← List.reverse_reverse n, containsSub_reverse]
  exact containsSub_dropWhile hd hds (by rwa [containsSub_reverse])

/-- Lowercasing commutes with whitespace stripping. -/
theorem pstrip_lowerL (l : List Char) : pstrip (lowerL l) = lowerL (pstrip l) := by
  unfold pstrip pstripLeft lowerL
  have hfun : (isSpace ∘ lowerChar) = isSpace := by
    funext c
    exact isSpace_lowerChar c
  have hdw : ∀ m : List Char,
      (m.map lowerChar).dropWhile isSpace = (m.dropWhile isSpace).map lowerChar := by
    intro m
    rw [List.dropWhile_map, hfun]
  rw [hdw]
  generalize l.dropWhile isSpace = m
  induction m with
  | nil => rfl
  | cons c rest ih =>
    rw [List.map_cons, pstripRight_cons, pstripRight_cons, ih]
    match hr : pstripRight rest with
    | [] =>
      by_cases hsc : isSpace c = true <;> simp [hsc, isSpace_lowerChar]
    | r :: rs =>
      rfl

/-! ## Lemmas about first-seen deduplication -/

/-- The deduplicated list is a sublist (hence a subsequence, preserving
order) of the input. -/
theorem dedupGo_sublist (key : List Char → List Char)
    (xs : List (List Char)) : ∀ seen, (dedupGo key xs seen).Sublist xs := by
  induction xs with
  | nil => intro seen; exact List.Sublist.refl []
  | cons x rest ih =>
    intro seen
    unfold dedupGo
    by_cases hx : key x ∈ seen
    · rw [if_pos hx]
      exact (ih seen).cons x
    · rw [if_neg hx]
      exact (ih (key x :: seen)).cons₂ x

/-- No emitted element has a key from the initial seen-set. -/
theorem dedupGo_key_not_seen (key : List Char → List Char)
    (xs : List (List Char)) : ∀ seen y, y ∈ dedupGo key xs seen →
    key y ∉ seen := by
  induction xs with
  | nil => intro seen y hy; simp [dedupGo] at hy
  | cons x rest ih =>
    intro seen y hy
    unfold dedupGo at hy
    by_cases hx : key x ∈ seen
    · rw [if_pos hx] at hy
      exact ih seen y hy
    · rw [if_neg hx] at hy
      rcases List.mem_cons.mp hy with h1 | h2
      · subst h1; exact hx
      · intro hmem
        exact ih (key x :: seen) y h2 (List.mem_cons_of_mem _ hmem)

/-- All emitted elements have pairwise distinct keys. -/
theorem dedupGo_pairwise (key : List Char → List Char)
    (xs : List (List Char)) : ∀ seen,
    (dedupGo key xs seen).Pairwise (fun a b => key a ≠ key b) := by
  induction xs with
  | nil => intro seen; simp [dedupGo]
  | cons x rest ih =>
    intro seen
    unfold dedupGo
    by_cases hx : key x ∈ seen
    · rw [if_pos hx]
      exact ih seen
    · rw [if_neg hx]
      refine List.Pairwise.cons ?_ (ih (key x :: seen))
      intro y hy hkey
      exact dedupGo_key_not_seen key rest (key x :: seen) y hy
        (hkey ▸ List.mem_cons_self _ _)

/-- Every input element's key appears among the emitted keys (or was
already seen). -/
theorem key_mem_dedupGo (key : List Char → List Char)
    (xs : List (List Char)) : ∀ seen x, x ∈ xs →
    key x ∈ seen ∨ key x ∈ (dedupGo key xs seen).map key := by
  induction xs with
  | nil => intro seen x hx; simp at hx
  | cons a rest ih =>
    intro seen x hx
    unfold dedupGo
    by_cases ha : key a ∈ seen
    · rw [if_pos ha]
      rcases List.mem_cons.mp hx with h1 | h2
      · subst h1; exact Or.inl ha
      · exact ih seen x h2
    · rw [if_neg ha]
      rcases List.mem_cons.mp hx with h1 | h2
      · subst h1
        exact Or.inr (by simp)
      · rcases ih (key a :: seen) x h2 with h3 | h4
        · rcases List.mem_cons.mp h3 with h5 | h6
          · exact Or.inr (by simp [h5])
          · exact Or.inl h6
        · exact Or.inr (List.mem_cons_of_mem _ h4)

/-! ## Lemmas about the week2 extractor -/

/-- Every line that `_is_action_line` accepts contributes its cleaned form
to the line pass. -/
theorem mem_linePass {lines : List (List Char)} {raw : List Char}
    (hmem : raw ∈ lines) (hne : pstrip raw ≠ [])
    (hact : isActionLine (pstrip raw) = true) :
    cleanLine (pstrip raw) ∈ linePass lines := by
  induction lines with
  | nil => simp at hmem
  | cons l rest ih =>
    rcases List.mem_cons.mp hmem with h1 | h2
    · subst h1
      unfold linePass
      rw [if_neg hne, if_pos hact]
      exact List.mem_cons_self _ _
    · unfold linePass
      by_cases hb : pstrip l = []
      · rw [if_pos hb]
        exact ih h2
      · rw [if_neg hb]
        by_cases hal : isActionLine (pstrip l) = true
        · rw [if_pos hal]
          exact List.mem_cons_of_mem _ (ih h2)
        · rw [if_neg hal]
          exact ih h2

/-- The fallback loop is the filter of the stripped sentences by
non-blankness and `_looks_imperative`. -/
theorem fallbackFilter_eq (sents : List (List Char)) :
    fallbackFilter sents =
      (sents.map pstrip).filter (fun s => !s.isEmpty && looksImperative s) := by
  induction sents with
  | nil => rfl
  | cons sent rest ih =>
    unfold fallbackFilter
    rw [List.map_cons, List.filter_cons]
    by_cases hb : pstrip sent = []
    · rw [if_pos hb, ih, hb]
      simp
    · rw [if_neg hb]
      by_cases him : looksImperative (pstrip sent) = true
      · rw [if_pos him, ih]
        have : (!(pstrip sent).isEmpty && looksImperative (pstrip sent)) = true := by
          simp [him, List.isEmpty_iff, hb]
        rw [if_pos this]
      · rw [if_neg him, ih]
        have : (!(pstrip sent).isEmpty && looksImperative (pstrip sent)) = false := by
          simp [him]
        rw [this]
        simp

/-! ## Lemmas about the week8 extractor -/

/-- Every item the week8 loop emits survived the length, question and
letter filters. -/
theorem extract8Go_mem_props (lines : List (List Char)) :
    ∀ seen item, item ∈ extract8Go lines seen →
      3 ≤ item.length ∧
      ("?".data).isSuffixOf (pstripRight item) = false ∧
      item.any isAlphaChar = true := by
  induction lines with
  | nil => intro seen item h; simp [extract8Go] at h
  | cons line rest ih =>
    intro seen item h
    unfold extract8Go at h
    by_cases h1 : pstrip line = []
    · rw [if_pos h1] at h
      exact ih seen item h
    · rw [if_neg h1] at h
      by_cases h2 : clean8 line = [] ∨ (clean8 line).length < 3
      · rw [if_pos h2] at h
        exact ih seen item h
      · rw [if_neg h2] at h
        by_cases h3 : ("?".data).isSuffixOf (pstripRight (clean8 line)) = true
        · rw [if_pos h3] at h
          exact ih seen item h
        · rw [if_neg h3] at h
          by_cases h4 : (!(clean8 line).any isAlphaChar) = true
          · rw [if_pos h4] at h
            exact ih seen item h
          · rw [if_neg h4] at h
            by_cases h5 : classify8 (clean8 line) = true ∧ normKey (clean8 line) ∉ seen
            · rw [if_pos h5] at h
              rcases List.mem_cons.mp h with h6 | h7
              · subst h6
                push_neg at h2
                refine ⟨by omega, ?_, ?_⟩
                · simp only [Bool.not_eq_true] at h3
                  exact h3
                · simpa using h4
              · exact ih _ item h7
            · rw [if_neg h5] at h
              exact ih seen item h

/-- The week8 loop is the first-seen deduplication (by normalized form) of
the classification pass. -/
theorem extract8Go_eq_dedup (lines : List (List Char)) :
    ∀ seen, extract8Go lines seen = dedupGo normKey (candidates8 lines) seen := by
  induction lines with
  | nil => intro seen; rfl
  | cons line rest ih =>
    intro seen
    unfold extract8Go candidates8
    by_cases h1 : pstrip line = []
    · rw [if_pos h1, if_pos h1]
      exact ih seen
    · rw [if_neg h1, if_neg h1]
      by_cases h2 : clean8 line = [] ∨ (clean8 line).length < 3
      · rw [if_pos h2, if_pos h2]
        exact ih seen
      · rw [if_neg h2, if_neg h2]
        by_cases h3 : ("?".data).isSuffixOf (pstripRight (clean8 line)) = true
        · rw [if_pos h3, if_pos h3]
          exact ih seen
        · rw [if_neg h3, if_neg h3]
          by_cases h4 : (!(clean8 line).any isAlphaChar) = true
          · rw [if_pos h4, if_pos h4]
            exact ih seen
          · rw [if_neg h4, if_neg h4]
            by_cases h5 : classify8 (clean8 line) = true
            · rw [if_pos h5]
              unfold dedupGo
              by_cases h6 : normKey (clean8 line) ∈ seen
              · rw [if_neg (show ¬(classify8 (clean8 line) = true ∧
                    normKey (clean8 line) ∉ seen) by
                      intro hh; exact hh.2 h6),
                  if_pos h6]
                exact ih seen
              · rw [if_pos ⟨h5, h6⟩, if_neg h6]
                rw [ih (normKey (clean8 line) :: seen)]
            · rw [if_neg (show ¬(classify8 (clean8 line) = true ∧
                  normKey (clean8 line) ∉ seen) by
                    intro hh; exact h5 hh.1),
                if_neg h5]
              exact ih seen

/-- Characters of a produced line come from the scanned text or the
accumulator. -/
theorem mem_splitlinesGo (l acc : List Char) :
    ∀ line ∈ splitlinesGo l acc, ∀ c ∈ line, c ∈ l ∨ c ∈ acc := by
  induction l, acc using splitlinesGo.induct with
  | case1 acc =>
    intro line hline c hc
    simp only [splitlinesGo] at hline
    rcases List.mem_singleton.mp hline with h
    subst h
    exact Or.inr (List.mem_reverse.mp hc)
  | case2 acc =>
    intro line hline c hc
    simp only [splitlinesGo] at hline
    rcases List.mem_singleton.mp hline with h
    subst h
    exact Or.inr (List.mem_reverse.mp hc)
  | case3 d rest acc ih =>
    intro line hline c hc
    simp only [splitlinesGo] at hline
    rcases List.mem_cons.mp hline with h | h
    · subst h
      exact Or.inr (List.mem_reverse.mp hc)
    · rcases ih line h c hc with h1 | h2
      · exact Or.inl (List.mem_cons_of_mem _ h1)
      · simp at h2
  | case4 d rest acc hx1 hx2 ih =>
    intro line hline c hc
    rw [splitlinesGo.eq_4 acc d rest hx1 hx2] at hline
    rcases ih line hline c hc with h1 | h2
    · exact Or.inl (List.mem_cons_of_mem _ h1)
    · rcases List.mem_cons.mp h2 with h3 | h4
      · exact Or.inl (h3 ▸ List.mem_cons_self _ _)
      · exact Or.inr h4

/-- Characters of every line of `splitlines t` occur in `t`. -/
theorem mem_splitlines {t line : List Char} {c : Char}
    (hline : line ∈ splitlines t) (hc : c ∈ line) : c ∈ t := by
  unfold splitlines at hline
  by_cases ht : t = []
  · rw [if_pos ht] at hline
    simp at hline
  · rw [if_neg ht] at hline
    rcases mem_splitlinesGo t [] line hline c hc with h1 | h2
    · exact h1
    · simp at h2

/-- On all-blank line lists the week8 classification pass is empty. -/
theorem candidates8_eq_nil_of_blank {lines : List (List Char)}
    (h : ∀ line ∈ lines, pstrip line = []) : candidates8 lines = [] := by
  induction lines with
  | nil => rfl
  | cons line rest ih =>
    unfold candidates8
    rw [if_pos (h line (List.mem_cons_self _ _))]
    exact ih (fun l hl => h l (List.mem_cons_of_mem _ hl))

/-- On whitespace-only text the week8 classification pass is empty. -/
theorem candidates8_of_blank_text {t : List Char} (h : pstrip t = []) :
    candidates8 (splitlines t) = [] := by
  refine candidates8_eq_nil_of_blank ?_
  intro line hline
  rw [pstrip_eq_nil_iff] at h ⊢
  intro c hc
  exact h c (mem_splitlines hline hc)

/-! ## Lemmas about the hashtag extractor -/

/-- Raw tags produced by the scan are never empty (`\w+` needs at least
one character). -/
theorem findTagsGo_ne_nil (fuel : Nat) :
    ∀ l : List Char, ∀ w ∈ findTagsGo fuel l, w ≠ [] := by
  induction fuel with
  | zero =>
    intro l w hmem
    cases l <;> simp [findTagsGo] at hmem
  | succ fuel ih =>
    intro l w hmem
    cases l with
    | nil => simp [findTagsGo] at hmem
    | cons c rest =>
      rw [findTagsGo] at hmem
      by_cases hc : c = '#'
      · rw [if_pos hc] at hmem
        by_cases hw : rest.takeWhile isWordChar = []
        · rw [if_pos hw] at hmem
          exact ih rest w hmem
        · rw [if_neg hw] at hmem
          rcases List.mem_cons.mp hmem with h1 | h2
          · subst h1; exact hw
          · exact ih _ w h2
      · rw [if_neg hc] at hmem
        exact ih rest w hmem

/-- Raw tags of `findTags` are never empty. -/
theorem findTags_ne_nil (l : List Char) : ∀ w ∈ findTags l, w ≠ [] :=
  findTagsGo_ne_nil l.length l

/-- The dedup loop of `extract_hashtags` is first-seen deduplication of
the lowercased raw tags (the non-emptiness guard never fires on real
tags). -/
theorem hashtagsGo_eq_dedup (raws : List (List Char))
    (hne : ∀ w ∈ raws, w ≠ []) :
    ∀ seen, hashtagsGo raws seen = dedupGo id (raws.map lowerL) seen := by
  induction raws with
  | nil => intro seen; rfl
  | cons raw rest ih =>
    intro seen
    have hraw : lowerL raw ≠ [] := by
      rw [Ne, lowerL_eq_nil_iff]
      exact hne raw (List.mem_cons_self _ _)
    have hrest : ∀ w ∈ rest, w ≠ [] :=
      fun w hw => hne w (List.mem_cons_of_mem _ hw)
    unfold hashtagsGo
    rw [List.map_cons]
    unfold dedupGo
    by_cases hseen : lowerL raw ∈ seen
    · rw [if_neg (fun hh => hh.2 hseen), if_pos (show id (lowerL raw) ∈ seen from hseen)]
      exact ih hrest seen
    · rw [if_pos ⟨hraw, hseen⟩, if_neg (show ¬ id (lowerL raw) ∈ seen from hseen)]
      rw [ih hrest]
      rfl

/-! ## A lemma about the week2 line cleaner -/

/-- On lines whose first character is not whitespace, not a bullet
character, not a digit and not `[`, the week2 cleaner only strips
whitespace. -/
theorem cleanLine_of_head {l : List Char} {c : Char} (hhead : l.head? = some c)
    (hsp : isSpace c = false) (hb : bulletChars.contains c = false)
    (hd : isDigitChar c = false) (hbr : c ≠ '[') :
    cleanLine l = pstrip l := by
  cases l with
  | nil => simp at hhead
  | cons q xs =>
    rw [List.head?_cons, Option.some.injEq] at hhead
    subst hhead
    have hnopfx : ∀ p : List Char, p.head? = some '[' →
        ∀ ys : List Char, removePfx p (q :: ys) = q :: ys := by
      intro p hp ys
      unfold removePfx
      rw [if_neg]
      intro hpre
      rw [List.isPrefixOf_iff_prefix] at hpre
      obtain ⟨t, ht⟩ := hpre
      cases p with
      | nil => simp at hp
      | cons r rs =>
        rw [List.head?_cons, Option.some.injEq] at hp
        subst hp
        simp only [List.cons_append] at ht
        injection ht with h1 h2
        exact hbr h1.symm
    have hsub : matchBulletPfx (q :: xs) = none := by
      have hb2 : q ∉ bulletChars := by simpa using hb
      unfold matchBulletPfx
      rw [List.dropWhile_cons_of_neg (by simp [hsp])]
      simp [hb2, hd]
    have hkey : pstrip (q :: pstripRight xs) = q :: pstripRight xs := by
      rw [pstrip_cons_of_ne _ hsp, pstripRight_idem]
    unfold cleanLine subBullet
    rw [hsub]
    simp only [Option.getD_none]
    rw [pstrip_cons_of_ne _ hsp,
      hnopfx (("[ ]").data) rfl, hkey,
      hnopfx (("[todo]").data) rfl, hkey]

/-! ## The claims -/

/-- C1, counterexample: the week4/week5 simple extractor performs no
deduplication: on `"Do it!\nDo it!"` it returns the same item twice, so
two output items share their lowercase form. -/
theorem C1_cex_week4_no_dedup :
    extract_action_items_week4 (("Do it!\nDo it!").data) =
      [("Do it!").data, ("Do it!").data] ∧
    ¬ (extract_action_items_week4 (("Do it!\nDo it!").data)).Pairwise
        (fun a b => lowerL a ≠ lowerL b) := by
  constructor
  · decide
  · intro h
    rw [show extract_action_items_week4 (("Do it!\nDo it!").data) =
        [("Do it!").data, ("Do it!").data] from by decide] at h
    exact (List.pairwise_cons.mp h).1 _ (List.mem_singleton.mpr rfl) rfl

/-- C1 (amended to the deduplicating week8 variant): the week8 extractor
equals the first-seen deduplication (by normalized form) of its
classification pass, its output is a subsequence of that pass (first-seen
order at original positions), and no two output items share their
lowercase form. -/
theorem C1_week8_dedup_first_seen (text : List Char) :
    extract_action_items_week8 text =
      dedupGo normKey (candidates8 (splitlines text)) [] ∧
    (extract_action_items_week8 text).Sublist (candidates8 (splitlines text)) ∧
    (extract_action_items_week8 text).Pairwise (fun a b => lowerL a ≠ lowerL b) := by
  have heq : extract_action_items_week8 text =
      dedupGo normKey (candidates8 (splitlines text)) [] := by
    unfold extract_action_items_week8
    by_cases h : pstrip text = []
    · rw [if_pos h, candidates8_of_blank_text h]
      rfl
    · rw [if_neg h]
      exact extract8Go_eq_dedup (splitlines text) []
  refine ⟨heq, ?_, ?_⟩
  · rw [heq]
    exact dedupGo_sublist _ _ []
  · rw [heq]
    refine List.Pairwise.imp ?_ (dedupGo_pairwise normKey _ [])
    intro a b hab hl
    exact hab (show normKey a = normKey b by unfold normKey; rw [hl])

/-- C2: every extractor variant maps the empty string to the empty list
(in the embedding all variants are total functions by construction). -/
theorem C2_empty_string :
    extract_action_items_week2 (("").data) = [] ∧
    extract_action_items_week4 (("").data) = [] ∧
    extract_action_items_week8 (("").data) = [] := by
  decide

/-- C3, counterexample: the week4/week5 extractor strips the character set
`"- "` from both ends (`str.strip("- ")`), not just one leading `"- "`:
on `"-- Ship it!"` the code returns `"Ship it!"` while the claimed rule
returns `"-- Ship it!"`. -/
theorem C3_cex_strip_is_char_set :
    extract_action_items_week4 (("-- Ship it!").data) = [("Ship it!").data] ∧
    simpleVariantClaimed (("-- Ship it!").data) = [("-- Ship it!").data] ∧
    extract_action_items_week4 (("-- Ship it!").data) ≠
      simpleVariantClaimed (("-- Ship it!").data) := by
  refine ⟨by decide, by decide, by decide⟩

/-- C3 (amended): the week4/week5 extractor returns exactly the non-blank
lines that, after stripping all leading and trailing `-` and space
characters, end with `!` or start with `todo:` case-insensitively, in
input-line order; every returned item satisfies the rule. -/
theorem C3_simple_variant_amended (text : List Char) :
    extract_action_items_week4 text = simpleVariantAmended text ∧
    ∀ item ∈ extract_action_items_week4 text,
      ("!".data).isSuffixOf item = true ∨
      ("todo:".data).isPrefixOf (lowerL item) = true := by
  refine ⟨rfl, ?_⟩
  intro item hmem
  unfold extract_action_items_week4 at hmem
  have hp := List.of_mem_filter hmem
  simpa using hp

/-- C3, witness: instantiation at `"- Ship it!"`, whose single item
`"Ship it!"` satisfies the `!` rule. -/
theorem C3_witness :
    ("!".data).isSuffixOf (("Ship it!").data) = true ∨
    ("todo:".data).isPrefixOf (lowerL (("Ship it!").data)) = true :=
  (C3_simple_variant_amended (("- Ship it!").data)).2 (("Ship it!").data)
    (by decide)

/-- C4, counterexample: the week2 extractor does not strip keyword tokens:
on `"todo: write tests"` the returned item still begins with `todo:`. -/
theorem C4_cex_keyword_not_stripped :
    extract_action_items_week2 (("todo: write tests").data) =
      [("todo: write tests").data] ∧
    ("todo:".data).isPrefixOf (("todo: write tests").data) = true := by
  refine ⟨by decide, by decide⟩

/-- C4 (amended): the week2 cleaner removes only a literal leading `[ ]`
and then a literal leading `[todo]` (case-sensitively, after bullet
stripping); on lines that begin with `todo:`, `action:` or `next:` it
only strips whitespace, so such keyword tokens survive into the output. -/
theorem C4_strips_only_literal_checkbox :
    (∀ l : List Char,
      (("todo:".data).isPrefixOf l = true ∨
       ("action:".data).isPrefixOf l = true ∨
       ("next:".data).isPrefixOf l = true) →
      cleanLine l = pstrip l) ∧
    cleanLine (("[ ] fix build").data) = ("fix build").data ∧
    cleanLine (("[todo] fix build").data) = ("fix build").data := by
  refine ⟨?_, by decide, by decide⟩
  intro l hl
  rcases hl with h | h | h <;>
    [skip; skip; skip] <;>
  · rw [List.isPrefixOf_iff_prefix] at h
    obtain ⟨t, ht⟩ := h
    subst ht
    exact cleanLine_of_head rfl (by decide) (by decide) (by decide) (by decide)

/-- C4, witness: on `"todo: deploy"` the cleaner only strips whitespace. -/
theorem C4_witness :
    (("todo:".data).isPrefixOf (("todo: deploy").data) = true ∨
     ("action:".data).isPrefixOf (("todo: deploy").data) = true ∨
     ("next:".data).isPrefixOf (("todo: deploy").data) = true) ∧
    cleanLine (("todo: deploy").data) = pstrip (("todo: deploy").data) :=
  ⟨Or.inl (by decide),
   C4_strips_only_literal_checkbox.1 (("todo: deploy").data)
     (Or.inl (by decide))⟩

/-- C5: when the week2 line pass matches nothing, the result is the
first-seen lowercase deduplication of the stripped sentences of the text
(split at `.`, `!`, `?` boundaries) that `_looks_imperative` accepts. -/
theorem C5_fallback_sentences (text : List Char)
    (h : linePass (splitlines text) = []) :
    extract_action_items_week2 text =
      dedupGo lowerL (((sentencesOf text).map pstrip).filter
        (fun s => !s.isEmpty && looksImperative s)) [] := by
  unfold extract_action_items_week2
  rw [h, if_pos rfl]
  unfold fallbackPass
  rw [fallbackFilter_eq]

/-- C5, witness: instantiation at a two-sentence text with no matching
line, where only the imperative-starting sentence survives. -/
theorem C5_witness :
    linePass (splitlines (("Fix the build. The weather was nice.").data)) = [] ∧
    extract_action_items_week2 (("Fix the build. The weather was nice.").data) =
      dedupGo lowerL
        (((sentencesOf (("Fix the build. The weather was nice.").data)).map
          pstrip).filter (fun s => !s.isEmpty && looksImperative s)) [] :=
  ⟨by decide, C5_fallback_sentences _ (by decide)⟩

/-- C6: `extract_hashtags` is the first-seen deduplication of the
lowercased word-character runs following `#`, its output has no
duplicates, and it maps the two documented examples to
`["tag", "othertag"]` and `["tag", "second_tag"]`. -/
theorem C6_hashtags :
    (∀ text : List Char,
      extract_hashtags text = dedupGo id ((findTags text).map lowerL) [] ∧
      (extract_hashtags text).Pairwise (fun a b => a ≠ b)) ∧
    extract_hashtags (("This note has #tag and #OtherTag in it.").data) =
      [("tag").data, ("othertag").data] ∧
    extract_hashtags (("#tag, #tag! and also #second_tag.").data) =
      [("tag").data, ("second_tag").data] := by
  refine ⟨?_, by decide, by decide⟩
  intro text
  have heq : extract_hashtags text = dedupGo id ((findTags text).map lowerL) [] := by
    unfold extract_hashtags
    exact hashtagsGo_eq_dedup _ (findTags_ne_nil text) []
  refine ⟨heq, ?_⟩
  rw [heq]
  exact List.Pairwise.imp (fun h => h) (dedupGo_pairwise id _ [])

/-- C7: no item returned by the week8 extractor ends with `?` (question
lines are skipped before any classification rule runs). -/
theorem C7_no_question_items (text item : List Char)
    (h : item ∈ extract_action_items_week8 text) :
    ("?".data).isSuffixOf item = false := by
  unfold extract_action_items_week8 at h
  by_cases ht : pstrip text = []
  · rw [if_pos ht] at h
    simp at h
  · rw [if_neg ht] at h
    obtain ⟨hlen, hq, hal⟩ := extract8Go_mem_props _ [] item h
    by_contra hend
    rw [Bool.not_eq_false, List.isSuffixOf_iff_suffix] at hend
    obtain ⟨a, ha⟩ := hend
    rw [← ha, pstripRight_append_of_ne a (c := '?') (by decide)] at hq
    have : ("?".data).isSuffixOf (a ++ ("?").data) = true :=
      List.isSuffixOf_iff_suffix.mpr ⟨a, rfl⟩
    rw [this] at hq
    exact absurd hq (by simp)

/-- C7, witness: `"Fix the build!"` is returned and does not end with
`?`. -/
theorem C7_witness :
    ("Fix the build!").data ∈
      extract_action_items_week8 (("Fix the build!").data) ∧
    ("?".data).isSuffixOf (("Fix the build!").data) = false :=
  ⟨by decide,
   C7_no_question_items (("Fix the build!").data) (("Fix the build!").data)
     (by decide)⟩

/-- C8: every item returned by the week8 extractor has at least 3
characters and at least one ASCII letter, and hence is neither empty nor
whitespace-only. -/
theorem C8_length_and_letter (text item : List Char)
    (h : item ∈ extract_action_items_week8 text) :
    3 ≤ item.length ∧ item.any isAlphaChar = true ∧
    ¬ (∀ c ∈ item, isSpace c = true) := by
  unfold extract_action_items_week8 at h
  by_cases ht : pstrip text = []
  · rw [if_pos ht] at h
    simp at h
  · rw [if_neg ht] at h
    obtain ⟨hlen, hq, hal⟩ := extract8Go_mem_props _ [] item h
    refine ⟨hlen, hal, ?_⟩
    intro hall
    rw [List.any_eq_true] at hal
    obtain ⟨c, hc, hca⟩ := hal
    have hns := isAlphaChar_not_space hca
    rw [hall c hc] at hns
    exact absurd hns (by simp)

/-- C8, witness: `"TODO: ship the release"` is returned, is at least 3
characters long, contains a letter and is not whitespace-only. -/
theorem C8_witness :
    ("TODO: ship the release").data ∈
      extract_action_items_week8 (("TODO: ship the release").data) ∧
    (3 ≤ (("TODO: ship the release").data).length ∧
     (("TODO: ship the release").data).any isAlphaChar = true ∧
     ¬ (∀ c ∈ ("TODO: ship the release").data, isSpace c = true)) :=
  ⟨by decide,
   C8_length_and_letter (("TODO: ship the release").data)
     (("TODO: ship the release").data) (by decide)⟩

/-- C9: in week2, a non-blank line whose lowercased form contains `[ ]` or
`[todo]` anywhere is classified as an action line; yet only a literal
leading token is removed, so `"[TODO] fix build"` is returned with its
`[TODO]` prefix intact. -/
theorem C9_checkbox_substring_classifies :
    (∀ line : List Char, pstrip line ≠ [] →
      (containsSub (("[ ]").data) (lowerL line) = true ∨
       containsSub (("[todo]").data) (lowerL line) = true) →
      isActionLine line = true) ∧
    extract_action_items_week2 (("[TODO] fix build").data) =
      [("[TODO] fix build").data] := by
  refine ⟨?_, by decide⟩
  intro line hne hsub
  have hsubs : containsSub (("[ ]").data) (lowerL (pstrip line)) = true ∨
      containsSub (("[todo]").data) (lowerL (pstrip line)) = true := by
    rw [← pstrip_lowerL]
    rcases hsub with h | h
    · exact Or.inl (containsSub_pstrip (c := '[') (d := ']')
        (by decide) (by decide) (by decide) (by decide) h)
    · exact Or.inr (containsSub_pstrip (c := '[') (d := ']')
        (by decide) (by decide) (by decide) (by decide) h)
  have hne2 : lowerL (pstrip line) ≠ [] := by
    rw [Ne, lowerL_eq_nil_iff]
    exact hne
  rw [show isActionLine line =
      (if lowerL (pstrip line) = [] then false
       else if (matchBulletPfx (lowerL (pstrip line))).isSome = true then true
       else if (keywordPrefixes.any fun p =>
           p.isPrefixOf (lowerL (pstrip line))) = true then true
       else if (containsSub (("[ ]").data) (lowerL (pstrip line)) ||
           containsSub (("[todo]").data) (lowerL (pstrip line))) = true then
         true
       else false) from rfl]
  split_ifs with h1 h2 h3 h4
  · exact absurd h1 hne2
  · rfl
  · rfl
  · rfl
  · exfalso
    rcases hsubs with h | h <;> simp [h] at h4

/-- C9, witness: `"see [ ] item"` contains `[ ]` mid-line and is
classified. -/
theorem C9_witness :
    pstrip (("see [ ] item").data) ≠ [] ∧
    isActionLine (("see [ ] item").data) = true :=
  ⟨by decide,
   C9_checkbox_substring_classifies.1 (("see [ ] item").data) (by decide)
     (Or.inl (by decide))⟩

/-- C10, counterexample: a line beginning with the real Unicode bullet
`•` (followed by whitespace, non-blank) is not extracted by week2: the
source's character class holds the mojibake characters `â`, `€`, `¢`, not
`•`, the line matches no other rule, and the sentence fallback rejects it
(`buy` is not an imperative starter), so the result is empty. -/
theorem C10_cex_unicode_bullet :
    ("• ".data).isPrefixOf (("• buy milk").data) = true ∧
    pstrip (("• buy milk").data) ≠ [] ∧
    extract_action_items_week2 (("• buy milk").data) = [] := by
  refine ⟨by decide, by decide, by decide⟩

/-- C10 (amended to the marker set the source actually matches): in
week2, every line of the input that matches `BULLET_PREFIX_PATTERN` —
`-`, `*`, one of the mojibake characters `â`, `€`, `¢` (the stored bytes
of the bullet glyph), or a decimal ordinal like `3.`, each followed by
whitespace — is extracted regardless of its content: its cleaned form (up
to the lowercase dedup key) appears in the output; in particular
`"- the weather was nice"` is returned. -/
theorem C10_bulleted_lines_kept :
    (∀ text line : List Char, line ∈ splitlines text →
      (matchBulletPfx (lowerL (pstrip line))).isSome = true →
      lowerL (cleanLine (pstrip line)) ∈
        (extract_action_items_week2 text).map lowerL) ∧
    extract_action_items_week2 (("- the weather was nice").data) =
      [("the weather was nice").data] := by
  refine ⟨?_, by decide⟩
  intro text line hline hbul
  have hne : pstrip line ≠ [] := by
    intro hh
    rw [hh] at hbul
    exact absurd hbul (by decide)
  have hact : isActionLine (pstrip line) = true := by
    unfold isActionLine
    rw [pstrip_idem]
    rw [if_neg (show ¬ lowerL (pstrip line) = [] from
      fun hh => hne (lowerL_eq_nil_iff.mp hh))]
    rw [if_pos hbul]
  have hmem := mem_linePass hline hne hact
  have hlp : linePass (splitlines text) ≠ [] := by
    intro hh
    rw [hh] at hmem
    simp at hmem
  unfold extract_action_items_week2
  rw [if_neg hlp]
  rcases key_mem_dedupGo lowerL (linePass (splitlines text)) []
      (cleanLine (pstrip line)) hmem with h1 | h2
  · simp at h1
  · exact h2

/-- C10, witness: the line `"* buy milk"` of a two-line text is bulleted,
and its cleaned lowercase form is among the output's lowercase forms. -/
theorem C10_witness :
    ("* buy milk").data ∈ splitlines (("* buy milk\nplain text").data) ∧
    (matchBulletPfx (lowerL (pstrip (("* buy milk").data)))).isSome = true ∧
    lowerL (cleanLine (pstrip (("* buy milk").data))) ∈
      (extract_action_items_week2 (("* buy milk\nplain text").data)).map lowerL :=
  ⟨by decide, by decide,
   C10_bulleted_lines_kept.1 (("* buy milk\nplain text").data)
     (("* buy milk").data) (by decide) (by decide)⟩

end Extract
